import Mathlib

/-!
# Verification of the bibtex-mcp aggregation core

A shallow embedding, in Lean 4, of the core of the `reference_mcp` Python
package: the duplicate predicate and merge/rank pipeline
(`reference_mcp/aggregator.py`, `reference_mcp/models.py`) and the TTL result
cache with its secondary identifier index (`reference_mcp/server.py`).

Modelling conventions:
* Python `str` is Lean `String` (sequences of Unicode code points, matching
  Python's view of strings); `.lower()` is modelled on the ASCII range, which
  is exact for all inputs appearing in the proofs below.
* Python `float` is modelled as `ℚ` (exact arithmetic); Python `int` is `ℤ`.
* Wall-clock instants (`datetime.now()`) are an abstract `Nat` tick supplied
  to each cache operation; `timedelta(minutes=t)` is the tick count `t`.
* The external `rapidfuzz` library is embedded from its reference
  implementation (`fuzz.ratio` = normalized Indel similarity, and
  `fuzz.token_set_ratio`).
* The external `hashlib.md5` is embedded bit-exactly (RFC 1321).
* Mutable state (the `SimpleCache` object, and the Python heap in the frame
  theorem at the end) is passed explicitly.
-/

/-! ## Python string primitives -/

/-- Whitespace characters stripped by Python's `str.strip()` / split by
`str.split()` (ASCII fragment; Python also strips some rarer Unicode
whitespace, none of which occurs in the data handled here). -/
def isPyWs (c : Char) : Bool :=
  c = ' ' || c = '\t' || c = '\n' || c = '\r' || c = '\x0b' || c = '\x0c'

/-- Python `str.strip()`: remove leading and trailing whitespace. -/
def pyStrip (s : String) : String :=
  String.mk (((s.data.dropWhile isPyWs).reverse.dropWhile isPyWs).reverse)

/-- `str.lower()` on one character (ASCII range). -/
def pyLowerChar (c : Char) : Char :=
  if 'A' ≤ c && c ≤ 'Z' then Char.ofNat (c.toNat + 32) else c

/-- Python `str.lower()` (ASCII range). -/
def pyLower (s : String) : String :=
  String.mk (s.data.map pyLowerChar)

/-- Helper for `pySplitWs`: accumulate the current word (reversed). -/
def pySplitWsAux : List Char → List Char → List String
  | [], acc => if acc.isEmpty then [] else [String.mk acc.reverse]
  | c :: cs, acc =>
    if isPyWs c then
      if acc.isEmpty then pySplitWsAux cs []
      else String.mk acc.reverse :: pySplitWsAux cs []
    else pySplitWsAux cs (c :: acc)

/-- Python `str.split()` with no argument: split on runs of whitespace,
discarding empty fragments. -/
def pySplitWs (s : String) : List String :=
  pySplitWsAux s.data []

/-- Python string truthiness for optional string fields: `None` and `""` are
falsy, everything else is truthy. -/
def strTruthy : Option String → Bool
  | none => false
  | some s => s ≠ ""

/-- Python int truthiness for optional int fields: `None` and `0` are falsy. -/
def intTruthy : Option Int → Bool
  | none => false
  | some n => n ≠ 0

/-! ## The `rapidfuzz` similarity functions

Embedded from the library's reference (pure-Python / C++) implementation.
`fuzz.ratio` is the normalized Indel similarity scaled to 0–100; the Indel
distance of two strings is `len₁ + len₂ - 2·lcs`. -/

/-- One inner step of the longest-common-subsequence dynamic program:
given the remaining characters `ys` of the second string, the tail of the
previous DP row starting at the current column, and the value `left` just
computed in the new row, produce the rest of the new row. -/
def lcsRowAux (x : Char) : List Char → List Nat → Nat → List Nat
  | [], _, _ => []
  | y :: ys, prev, left =>
    let diag := prev.headD 0
    let up := prev.tail.headD 0
    let cur := if y = x then diag + 1 else max left up
    cur :: lcsRowAux x ys prev.tail cur

/-- Length of a longest common subsequence of two character lists (row-wise
dynamic program; structurally recursive so that it evaluates inside the
kernel). -/
def lcsLen (xs ys : List Char) : Nat :=
  (xs.foldl (fun row x => 0 :: lcsRowAux x ys row 0)
    (List.replicate (ys.length + 1) 0)).getLastD 0

/-- Indel (insertion/deletion-only edit) distance between two strings. -/
def indelDist (s1 s2 : String) : Nat :=
  s1.length + s2.length - 2 * lcsLen s1.data s2.data

/-- `100 - 100 * dist / lensum` (similarity from a distance and a length
budget); `100` when the budget is zero.  Matches rapidfuzz's
`norm_distance` post-processing into a similarity score. -/
def normDistSim (dist lensum : Nat) : ℚ :=
  if lensum = 0 then 100 else 100 - 100 * (dist : ℚ) / (lensum : ℚ)

/-- `rapidfuzz.fuzz.ratio`: normalized Indel similarity × 100. -/
def fuzzRatio (s1 s2 : String) : ℚ :=
  normDistSim (indelDist s1 s2) (s1.length + s2.length)

/-- Insert a string into a sorted duplicate-free list (used to model
Python's `sorted(set(...))`). -/
def insSortedDedup (x : String) : List String → List String
  | [] => [x]
  | y :: ys =>
    if x = y then y :: ys
    else if x < y then x :: y :: ys
    else y :: insSortedDedup x ys

/-- `sorted(set(l))` for a list of strings. -/
def sortedDedup (l : List String) : List String :=
  l.foldl (fun acc x => insSortedDedup x acc) []

/-- `" ".join(l)`. -/
def joinSpace (l : List String) : String :=
  String.intercalate " " l

/-- `rapidfuzz.fuzz.token_set_ratio`, from the library's reference
implementation: split both strings into whitespace-delimited token sets;
if either set is empty the score is 0; if one token set contains the other
(nonempty intersection, one difference empty) the score is 100; otherwise
compare the joined sorted set differences by Indel distance, normalized as
if each were prefixed by the joined intersection, and also score each
difference string against the bare intersection, returning the maximum. -/
def tokenSetRatio (s1 s2 : String) : ℚ :=
  let tokensA := sortedDedup (pySplitWs s1)
  let tokensB := sortedDedup (pySplitWs s2)
  if tokensA.isEmpty || tokensB.isEmpty then 0
  else
    let intersect := tokensA.filter (fun t => t ∈ tokensB)
    let diffAB := tokensA.filter (fun t => t ∉ tokensB)
    let diffBA := tokensB.filter (fun t => t ∉ tokensA)
    if ¬intersect.isEmpty && (diffAB.isEmpty || diffBA.isEmpty) then 100
    else
      let diffABjoined := joinSpace diffAB
      let diffBAjoined := joinSpace diffBA
      let abLen := diffABjoined.length
      let baLen := diffBAjoined.length
      let sectLen := (joinSpace intersect).length
      let sectMark : Nat := if sectLen = 0 then 0 else 1
      let sectAbLen := sectLen + sectMark + abLen
      let sectBaLen := sectLen + sectMark + baLen
      let result := normDistSim (indelDist diffABjoined diffBAjoined)
        (sectAbLen + sectBaLen)
      if sectLen = 0 then result
      else
        let sectAbRatio := normDistSim (sectMark + abLen) (sectLen + sectAbLen)
        let sectBaRatio := normDistSim (sectMark + baLen) (sectLen + sectBaLen)
        max result (max sectAbRatio sectBaRatio)

/-! ## Data model (`reference_mcp/models.py`) -/

/-- `ProviderMeta`: metadata from a specific provider about a reference.
`raw_data` is an opaque raw-response payload (`Dict[str, Any]`); no code in
the aggregation core ever reads it, so it is modelled as an opaque string. -/
structure ProviderMeta where
  name : String
  relevance_score : Option ℚ := none
  url : Option String := none
  raw_data : Option String := none
deriving Repr, DecidableEq

/-- `Reference`: an academic reference (Pydantic model), field for field. -/
structure Reference where
  title : String
  authors : List String
  year : Option Int := none
  doi : Option String := none
  arxiv_id : Option String := none
  s2_paper_id : Option String := none
  dblp_key : Option String := none
  venue : Option String := none
  volume : Option String := none
  issue : Option String := none
  pages : Option String := none
  publisher : Option String := none
  abstract : Option String := none
  bibtex : String := ""
  citation_count : Option Int := none
  sources : List ProviderMeta := []
  score : ℚ := 0
deriving Repr, DecidableEq

/-- `Reference.merge_with(self, other)` (`models.py`): merge `other` into
`self`, keeping the most complete data.  The Python method mutates `self` in
place; here the updated value is returned. -/
def Reference.mergeWith (self other : Reference) : Reference :=
  let doi := if ¬strTruthy self.doi && strTruthy other.doi then other.doi else self.doi
  let arxiv_id :=
    if ¬strTruthy self.arxiv_id && strTruthy other.arxiv_id then other.arxiv_id
    else self.arxiv_id
  let s2_paper_id :=
    if ¬strTruthy self.s2_paper_id && strTruthy other.s2_paper_id then other.s2_paper_id
    else self.s2_paper_id
  let dblp_key :=
    if ¬strTruthy self.dblp_key && strTruthy other.dblp_key then other.dblp_key
    else self.dblp_key
  let authors :=
    if self.authors.isEmpty && ¬other.authors.isEmpty then other.authors else self.authors
  let abstract :=
    if strTruthy other.abstract then
      if ¬strTruthy self.abstract then other.abstract
      else if (self.abstract.getD "").length < (other.abstract.getD "").length then
        other.abstract
      else self.abstract
    else self.abstract
  let citation_count :=
    if intTruthy other.citation_count then
      if ¬intTruthy self.citation_count then other.citation_count
      else if self.citation_count.getD 0 < other.citation_count.getD 0 then
        other.citation_count
      else self.citation_count
    else self.citation_count
  let sources := self.sources ++ other.sources
  let provider_scores := sources.filterMap (fun s => s.relevance_score)
  let score :=
    if provider_scores.isEmpty then self.score
    else provider_scores.sum / (provider_scores.length : ℚ)
  { self with
    doi, arxiv_id, s2_paper_id, dblp_key, authors, abstract, citation_count,
    sources, score }

/-! ## Aggregator (`reference_mcp/aggregator.py`) -/

/-- `_normalize_doi`: lower-case, strip surrounding whitespace, then strip
one leading `https://doi.org/`, `http://doi.org/` or `doi:` marker. -/
def normalizeDoi : Option String → Option String
  | none => none
  | some s =>
    if s = "" then none
    else
      let d := pyStrip (pyLower s)
      some (if d.startsWith "https://doi.org/" then d.drop 16
        else if d.startsWith "http://doi.org/" then d.drop 15
        else if d.startsWith "doi:" then d.drop 4
        else d)

/-- `_normalize_arxiv_id`: strip surrounding whitespace; if the ID contains a
literal `v`, truncate at the first `v` (`arxiv_id.split("v")[0]`, the prefix
before the first occurrence of the single-character separator). -/
def normalizeArxivId : Option String → Option String
  | none => none
  | some s =>
    if s = "" then none
    else
      let t := pyStrip s
      some (if t.contains 'v' then String.mk (t.data.takeWhile (fun c => c ≠ 'v'))
        else t)

/-- `_extract_first_author_lastname`: the last whitespace-delimited token of
the first listed author, lower-cased; `""` if unavailable. -/
def extractFirstAuthorLastname (authors : List String) : String :=
  match authors with
  | [] => ""
  | firstAuthor :: _ =>
    let parts := pySplitWs (pyStrip firstAuthor)
    match parts.getLast? with
    | some p => pyLower p
    | none => ""

/-- `_are_duplicates(ref1, ref2)`: hard identifiers first (normalized DOI,
normalized arXiv ID, exact paper ID), then the fuzzy title/author/year
fallback. -/
def areDuplicates (ref1 ref2 : Reference) : Bool :=
  if strTruthy ref1.doi && strTruthy ref2.doi
      && normalizeDoi ref1.doi = normalizeDoi ref2.doi then true
  else if strTruthy ref1.arxiv_id && strTruthy ref2.arxiv_id
      && normalizeArxivId ref1.arxiv_id = normalizeArxivId ref2.arxiv_id then true
  else if strTruthy ref1.s2_paper_id && strTruthy ref2.s2_paper_id
      && ref1.s2_paper_id = ref2.s2_paper_id then true
  else
    let titleSimilarity := tokenSetRatio (pyLower ref1.title) (pyLower ref2.title)
    if 94 ≤ titleSimilarity then
      if intTruthy ref1.year && intTruthy ref2.year && ref1.year ≠ ref2.year then false
      else
        let author1 := extractFirstAuthorLastname ref1.authors
        let author2 := extractFirstAuthorLastname ref2.authors
        if author1 ≠ "" && author2 ≠ "" then 80 ≤ fuzzRatio author1 author2
        else 98 ≤ titleSimilarity
    else false

/-- The inner `for j` scan of `dedupe_rank`: fold the not-yet-processed tail
through the accumulator, merging every record the (evolving) accumulator
recognizes as a duplicate and keeping the rest in order. -/
def collectDups (cur : Reference) : List Reference → Reference × List Reference
  | [] => (cur, [])
  | x :: xs =>
    if areDuplicates cur x then collectDups (cur.mergeWith x) xs
    else
      let (c, rest) := collectDups cur xs
      (c, x :: rest)

/-- Fuelled version of the grouping phase of `dedupe_rank` (the fuel keeps
the recursion structural; `groupDups` supplies fuel `l.length`, which is
always enough because `collectDups` never lengthens the remainder — see
`collectDups_snd_length` below). -/
def groupDupsF : Nat → List Reference → List Reference
  | _, [] => []
  | 0, _ :: _ => []
  | fuel + 1, r :: rest =>
    (collectDups r rest).1 :: groupDupsF fuel (collectDups r rest).2

/-- The grouping phase of `dedupe_rank`: left-to-right scan with a
processed-set; each head record is deep-copied into an accumulator (value
copy here) and all later duplicates are merged into it. -/
def groupDups (l : List Reference) : List Reference :=
  groupDupsF l.length l

/-- The `sort_key` closure of `dedupe_rank`: `(-score, -(year or 0),
title.lower())`, compared as a Python tuple. -/
def sortKey (r : Reference) : ℚ × Int × String :=
  (-r.score, -(r.year.getD 0), pyLower r.title)

/-- Non-strict lexicographic order on sort-key tuples; this is the order by
which Python's stable `list.sort(key=sort_key)` arranges the records. -/
def sortKeyLe (a b : Reference) : Prop :=
  (sortKey a).1 < (sortKey b).1 ∨
    ((sortKey a).1 = (sortKey b).1 ∧
      ((sortKey a).2.1 < (sortKey b).2.1 ∨
        ((sortKey a).2.1 = (sortKey b).2.1 ∧ (sortKey a).2.2 ≤ (sortKey b).2.2)))

instance : DecidableRel sortKeyLe := fun a b => by
  unfold sortKeyLe; infer_instance

instance : IsTotal Reference sortKeyLe where
  total a b := by
    unfold sortKeyLe
    rcases lt_trichotomy (sortKey a).1 (sortKey b).1 with h | h | h
    · exact Or.inl (Or.inl h)
    · rcases lt_trichotomy (sortKey a).2.1 (sortKey b).2.1 with h2 | h2 | h2
      · exact Or.inl (Or.inr ⟨h, Or.inl h2⟩)
      · rcases le_total (sortKey a).2.2 (sortKey b).2.2 with h3 | h3
        · exact Or.inl (Or.inr ⟨h, Or.inr ⟨h2, h3⟩⟩)
        · exact Or.inr (Or.inr ⟨h.symm, Or.inr ⟨h2.symm, h3⟩⟩)
      · exact Or.inr (Or.inr ⟨h.symm, Or.inl h2⟩)
    · exact Or.inr (Or.inl h)

instance : IsTrans Reference sortKeyLe where
  trans a b c hab hbc := by
    unfold sortKeyLe at *
    rcases hab with h1 | ⟨e1, h1⟩
    · rcases hbc with h2 | ⟨e2, _⟩
      · exact Or.inl (h1.trans h2)
      · exact Or.inl (e2 ▸ h1)
    · rcases hbc with h2 | ⟨e2, h2⟩
      · exact Or.inl (e1 ▸ h2)
      · refine Or.inr ⟨e1.trans e2, ?_⟩
        rcases h1 with h1 | ⟨f1, h1⟩
        · rcases h2 with h2 | ⟨f2, _⟩
          · exact Or.inl (h1.trans h2)
          · exact Or.inl (f2 ▸ h1)
        · rcases h2 with h2 | ⟨f2, h2⟩
          · exact Or.inl (f1 ▸ h2)
          · exact Or.inr ⟨f1.trans f2, h1.trans h2⟩

/-- `dedupe_rank(references, max_results)`: group-and-merge duplicates, then
stable-sort by the sort key (Python's `list.sort` is stable; so is insertion
sort), then truncate to `max_results`. -/
def dedupeRank (references : List Reference) (maxResults : Nat) : List Reference :=
  if references.isEmpty then []
  else (List.insertionSort sortKeyLe (groupDups references)).take maxResults

/-! ## Fanout (`aggregator.fanout`)

`fanout` launches one task per provider (in provider order), awaits them
all, and flattens the results in task order.  Each task's interaction with
the event loop is abstracted into its *outcome*: the result list of a
successful `cached_search`, or a timeout (`asyncio.TimeoutError`), or any
other raised exception.  `search_with_timeout` maps the latter two to `[]`
and never re-raises. -/

/-- Outcome of one provider's bounded `cached_search` call. -/
inductive SearchOutcome where
  | ok (results : List Reference)
  | timedOut
  | failed
deriving Repr, DecidableEq

/-- `search_with_timeout`: the provider's results, or `[]` on timeout or on
any other exception. -/
def searchWithTimeout : SearchOutcome → List Reference
  | .ok results => results
  | .timedOut => []
  | .failed => []

/-- `fanout`: flatten the per-provider outcomes in provider-call order. -/
def fanout (outcomes : List SearchOutcome) : List Reference :=
  (outcomes.map searchWithTimeout).flatten

/-! ## MD5 (`hashlib.md5`, RFC 1321)

`SimpleCache._get_ref_id` falls back to
`"title_hash_" + hashlib.md5(title.encode()).hexdigest()[:16]` for records
with no identifier, so the digest is embedded bit-exactly.  Bytes and
32-bit words are `Nat`s reduced mod `2^8` / `2^32` where overflow matters. -/

/-- Truncate to a 32-bit word. -/
def m32 (n : Nat) : Nat := n % 4294967296

/-- Bitwise NOT on a 32-bit word. -/
def bnot32 (n : Nat) : Nat := n ^^^ 4294967295

/-- Left-rotate a 32-bit word by `s` (0 ≤ s < 32). -/
def rotl32 (x s : Nat) : Nat := m32 (x <<< s) ||| (x >>> (32 - s))

/-- Little-endian byte decomposition of `v` into `n` bytes. -/
def leBytes : Nat → Nat → List Nat
  | 0, _ => []
  | n + 1, v => (v % 256) :: leBytes n (v / 256)

/-- Assemble a little-endian 32-bit word from four bytes. -/
def leWord (bs : List Nat) : Nat :=
  bs.getD 0 0 + 256 * bs.getD 1 0 + 65536 * bs.getD 2 0 + 16777216 * bs.getD 3 0

/-- Split a list into chunks of `n` (fuelled to stay structural). -/
def chunkListF (n : Nat) : Nat → List Nat → List (List Nat)
  | _, [] => []
  | 0, _ :: _ => []
  | fuel + 1, x :: xs => (x :: xs).take n :: chunkListF n fuel ((x :: xs).drop n)

/-- MD5 padding: append `0x80`, zero-fill to 56 mod 64, then the original
bit length as a little-endian 64-bit quantity. -/
def md5Pad (msg : List Nat) : List Nat :=
  let zeros := (119 - msg.length % 64) % 64
  msg ++ [128] ++ List.replicate zeros 0 ++ leBytes 8 ((msg.length * 8) % 18446744073709551616)

/-- The 64 MD5 sine-derived constants `⌊2³² · |sin(i+1)|⌋`. -/
def md5K : List Nat := [
  0xd76aa478, 0xe8c7b756, 0x242070db, 0xc1bdceee,
  0xf57c0faf, 0x4787c62a, 0xa8304613, 0xfd469501,
  0x698098d8, 0x8b44f7af, 0xffff5bb1, 0x895cd7be,
  0x6b901122, 0xfd987193, 0xa679438e, 0x49b40821,
  0xf61e2562, 0xc040b340, 0x265e5a51, 0xe9b6c7aa,
  0xd62f105d, 0x02441453, 0xd8a1e681, 0xe7d3fbc8,
  0x21e1cde6, 0xc33707d6, 0xf4d50d87, 0x455a14ed,
  0xa9e3e905, 0xfcefa3f8, 0x676f02d9, 0x8d2a4c8a,
  0xfffa3942, 0x8771f681, 0x6d9d6122, 0xfde5380c,
  0xa4beea44, 0x4bdecfa9, 0xf6bb4b60, 0xbebfbc70,
  0x289b7ec6, 0xeaa127fa, 0xd4ef3085, 0x04881d05,
  0xd9d4d039, 0xe6db99e5, 0x1fa27cf8, 0xc4ac5665,
  0xf4292244, 0x432aff97, 0xab9423a7, 0xfc93a039,
  0x655b59c3, 0x8f0ccc92, 0xffeff47d, 0x85845dd1,
  0x6fa87e4f, 0xfe2ce6e0, 0xa3014314, 0x4e0811a1,
  0xf7537e82, 0xbd3af235, 0x2ad7d2bb, 0xeb86d391]

/-- The MD5 per-round left-rotation amounts. -/
def md5S : List Nat := [
  7, 12, 17, 22, 7, 12, 17, 22, 7, 12, 17, 22, 7, 12, 17, 22,
  5, 9, 14, 20, 5, 9, 14, 20, 5, 9, 14, 20, 5, 9, 14, 20,
  4, 11, 16, 23, 4, 11, 16, 23, 4, 11, 16, 23, 4, 11, 16, 23,
  6, 10, 15, 21, 6, 10, 15, 21, 6, 10, 15, 21, 6, 10, 15, 21]

/-- One of the 64 MD5 operations, on state `(a, b, c, d)` with message
words `m`. -/
def md5Op (m : List Nat) (st : Nat × Nat × Nat × Nat) (i : Nat) :
    Nat × Nat × Nat × Nat :=
  let (a, b, c, d) := st
  let f :=
    if i < 16 then (b &&& c) ||| (bnot32 b &&& d)
    else if i < 32 then (d &&& b) ||| (bnot32 d &&& c)
    else if i < 48 then b ^^^ c ^^^ d
    else c ^^^ (b ||| bnot32 d)
  let g :=
    if i < 16 then i
    else if i < 32 then (5 * i + 1) % 16
    else if i < 48 then (3 * i + 5) % 16
    else (7 * i) % 16
  let rot := m32 (a + f + md5K.getD i 0 + m.getD g 0)
  (d, m32 (b + rotl32 rot (md5S.getD i 0)), b, c)

/-- Process one 64-byte MD5 block. -/
def md5Block (st : Nat × Nat × Nat × Nat) (block : List Nat) :
    Nat × Nat × Nat × Nat :=
  let m := (chunkListF 4 block.length block).map leWord
  let (a0, b0, c0, d0) := st
  let (a, b, c, d) := (List.range 64).foldl (md5Op m) st
  (m32 (a0 + a), m32 (b0 + b), m32 (c0 + c), m32 (d0 + d))

/-- Lower-case hex character for a nibble. -/
def hexChar (n : Nat) : Char :=
  if n < 10 then Char.ofNat (48 + n) else Char.ofNat (87 + n)

/-- Two-character lower-case hex rendering of a byte. -/
def byteHex (b : Nat) : List Char := [hexChar (b / 16), hexChar (b % 16)]

/-- `hashlib.md5(bytes).hexdigest()`. -/
def md5Hex (msg : List Nat) : String :=
  let padded := md5Pad msg
  let (a, b, c, d) :=
    (chunkListF 64 padded.length padded).foldl md5Block
      (0x67452301, 0xefcdab89, 0x98badcfe, 0x10325476)
  String.mk (((leBytes 4 a ++ leBytes 4 b ++ leBytes 4 c ++ leBytes 4 d).map byteHex).flatten)

/-- UTF-8 encoding of one character (`str.encode()`). -/
def utf8Bytes (c : Char) : List Nat :=
  let n := c.toNat
  if n < 128 then [n]
  else if n < 2048 then [192 ||| (n >>> 6), 128 ||| (n &&& 63)]
  else if n < 65536 then
    [224 ||| (n >>> 12), 128 ||| ((n >>> 6) &&& 63), 128 ||| (n &&& 63)]
  else
    [240 ||| (n >>> 18), 128 ||| ((n >>> 12) &&& 63),
      128 ||| ((n >>> 6) &&& 63), 128 ||| (n &&& 63)]

/-- `s.encode()`: the UTF-8 bytes of a string. -/
def strUtf8 (s : String) : List Nat :=
  (s.data.map utf8Bytes).flatten

/-- `hashlib.md5(s.encode()).hexdigest()`. -/
def md5HexOfString (s : String) : String :=
  md5Hex (strUtf8 s)

/-! ## The result cache (`reference_mcp/server.py`, class `SimpleCache`)

Python `dict`s are modelled as insertion-ordered association lists (updates
replace in place, new keys append at the end, `del` removes), and Python
`set`s of cache keys as insertion-ordered duplicate-free lists (`add`
appends if absent, `discard` erases).  `datetime.now()` is an abstract
`Nat` tick passed to each operation; `timedelta(minutes=ttl)` is the tick
count `ttl`.  All cached values in the server are `list`s of reference
dicts produced by `Reference.model_dump()`, so `CacheEntry.data` is a
`List Reference` (and every `isinstance(value, list)` test in the source is
true). -/

/-- `d[k]` lookup in an association list (first match). -/
def afind (k : String) : List (String × α) → Option α
  | [] => none
  | (k', v) :: rest => if k' = k then some v else afind k rest

/-- `d[k] = v`: replace in place if present, else append at the end. -/
def aset (k : String) (v : α) : List (String × α) → List (String × α)
  | [] => [(k, v)]
  | (k', v') :: rest => if k' = k then (k, v) :: rest else (k', v') :: aset k v rest

/-- `del d[k]`. -/
def adel (k : String) (l : List (String × α)) : List (String × α) :=
  l.filter (fun p => ¬p.1 = k)

/-- A cache entry: the stored payload and its absolute expiry tick. -/
structure CacheEntry where
  data : List Reference
  expiresAt : Nat
deriving Repr, DecidableEq

/-- The mutable state of a `SimpleCache`: the primary map `_cache`, the TTL
`_ttl`, and the secondary identifier index `_id_to_keys`. -/
structure CacheState where
  cache : List (String × CacheEntry)
  ttl : Nat
  idToKeys : List (String × List String)
deriving Repr, DecidableEq

/-- `SimpleCache(ttl_minutes=10)`: fresh empty state. -/
def SimpleCache.init (ttlMinutes : Nat := 10) : CacheState :=
  { cache := [], ttl := ttlMinutes, idToKeys := [] }

/-- `SimpleCache._get_ref_id(ref)`: the derived stable identifier — the
first truthy of `doi`, `arxiv_id`, `s2_paper_id`, `dblp_key`, else
`"title_hash_"` plus the first 16 hex digits of the MD5 of the title. -/
def getRefId (r : Reference) : String :=
  if strTruthy r.doi then r.doi.getD ""
  else if strTruthy r.arxiv_id then r.arxiv_id.getD ""
  else if strTruthy r.s2_paper_id then r.s2_paper_id.getD ""
  else if strTruthy r.dblp_key then r.dblp_key.getD ""
  else "title_hash_" ++ (md5HexOfString r.title).take 16

/-- The body of `_remove_entry`'s index cleanup for one reference: discard
`key` from the entry-set of the reference's derived identifier, deleting the
entry-set if it becomes empty. -/
def discardKey (key rid : String) (m : List (String × List String)) :
    List (String × List String) :=
  match afind rid m with
  | none => m
  | some ks =>
    let ks' := ks.erase key
    if ks'.isEmpty then adel rid m else aset rid ks' m

/-- The full index cleanup of `_remove_entry`: one `discardKey` per
reference in the removed entry's payload. -/
def removeIdx (key : String) (data : List Reference)
    (m : List (String × List String)) : List (String × List String) :=
  data.foldl (fun m r => discardKey key (getRefId r) m) m

/-- `SimpleCache._remove_entry(key)`: remove the entry and, for `search:`
keys, clean the identifier index. -/
def removeEntry (key : String) (st : CacheState) : CacheState :=
  match afind key st.cache with
  | none => st
  | some e =>
    let idk :=
      if key.startsWith "search:" then removeIdx key e.data st.idToKeys
      else st.idToKeys
    { st with cache := adel key st.cache, idToKeys := idk }

/-- `SimpleCache.clear_expired()`: snapshot the expired keys, then remove
each. -/
def clearExpired (now : Nat) (st : CacheState) : CacheState :=
  let expiredKeys := (st.cache.filter (fun p => p.2.expiresAt ≤ now)).map (fun p => p.1)
  expiredKeys.foldl (fun s k => removeEntry k s) st

/-- The index update of `set` for one reference: create the identifier's
entry-set if absent (appended at the end of the index), then add `key`
(Python `set.add`: append if absent). -/
def addKeyToId (rid key : String) (m : List (String × List String)) :
    List (String × List String) :=
  match afind rid m with
  | none => m ++ [(rid, [key])]
  | some ks => aset rid (if key ∈ ks then ks else ks ++ [key]) m

/-- `SimpleCache.set(key, value)`: store the entry with expiry
`now + ttl`; for `search:` keys, index every stored reference under its
derived identifier. -/
def cacheSet (key : String) (value : List Reference) (now : Nat)
    (st : CacheState) : CacheState :=
  let entry : CacheEntry := { data := value, expiresAt := now + st.ttl }
  let cache' := aset key entry st.cache
  let idk :=
    if key.startsWith "search:" then
      value.foldl (fun m r => addKeyToId (getRefId r) key m) st.idToKeys
    else st.idToKeys
  { st with cache := cache', idToKeys := idk }

/-- `SimpleCache._clean_expired_if_needed()` followed by the body of
`get(key)`: return the payload if present and fresh; evict if present but
expired. -/
def cacheGet (key : String) (now : Nat) (st : CacheState) :
    Option (List Reference) × CacheState :=
  let st1 :=
    if 100 < st.cache.length ∧ st.cache.length % 100 = 0 then clearExpired now st
    else st
  match afind key st1.cache with
  | some e =>
    if now < e.expiresAt then (some e.data, st1) else (none, removeEntry key st1)
  | none => (none, st1)

/-- The `for cache_key in self._id_to_keys[doc_id]` loop of `get_by_id`,
with CPython's set-iterator semantics made explicit: the iterator remembers
the set's size at creation (`origSize`) and every advance — including the
final one that would end the loop — raises `RuntimeError` (modelled as
`Except.error ()`) if the set's current size (`curSize`) has changed.
Evicting an expired candidate entry whose payload contains a record with
the looked-up identifier shrinks the very set being iterated. -/
def getByIdIter (docId : String) (now : Nat) :
    List String → Nat → Nat → CacheState →
    Except Unit (Option (String × Reference)) × CacheState
  | pending, origSize, curSize, st =>
    if curSize ≠ origSize then (Except.error (), st)
    else
      match pending with
      | [] => (Except.ok none, st)
      | k :: rest =>
        match afind k st.cache with
        | none => getByIdIter docId now rest origSize curSize st
        | some e =>
          if now < e.expiresAt then
            match e.data.find? (fun r => getRefId r = docId) with
            | some r => (Except.ok (some (k, r)), st)
            | none => getByIdIter docId now rest origSize curSize st
          else
            let st' := removeEntry k st
            let curSize' := ((afind docId st'.idToKeys).getD []).length
            getByIdIter docId now rest origSize curSize' st'

/-- `SimpleCache.get_by_id(doc_id)`: look the identifier up in the
secondary index and scan its candidate cache keys.  `Except.error ()` is
the `RuntimeError` CPython raises when the iterated set changes size. -/
def getById (docId : String) (now : Nat) (st : CacheState) :
    Except Unit (Option (String × Reference)) × CacheState :=
  match afind docId st.idToKeys with
  | none => (Except.ok none, st)
  | some keys => getByIdIter docId now keys keys.length keys.length st

/-- One observable operation on the result cache. -/
inductive CacheOp where
  | set (key : String) (value : List Reference) (now : Nat)
  | get (key : String) (now : Nat)
  | getById (id : String) (now : Nat)
  | clearExpired (now : Nat)
deriving Repr, DecidableEq

/-- Apply one operation to the cache state. -/
def stepOp (st : CacheState) (op : CacheOp) : CacheState :=
  match op with
  | .set k v n => cacheSet k v n st
  | .get k n => (cacheGet k n st).2
  | .getById i n => (getById i n st).2
  | .clearExpired n => clearExpired n st

/-- Run a sequence of cache operations. -/
def runOps (st : CacheState) (ops : List CacheOp) : CacheState :=
  ops.foldl stepOp st

/-- The two-part invariant claimed of the cache: (1) the identifier index
never references a cache key absent from the primary map; (2) every record
reachable from the primary map is reachable from the identifier index under
its derived identifier. -/
def cacheInvariant (st : CacheState) : Bool :=
  (st.idToKeys.all fun p => p.2.all fun k => (afind k st.cache).isSome) &&
  (st.cache.all fun q => q.2.data.all fun r =>
    (decide (q.1 ∈ (afind (getRefId r) st.idToKeys).getD [])))

/-- Side condition under which one operation is issued by the server:
`set` is only ever called with a `search:`-prefixed key that missed (is
absent from the primary map) at the moment of the call; the read-only
operations are unrestricted. -/
def serverOpOk (st : CacheState) : CacheOp → Bool
  | .set k _ _ => k.startsWith "search:" && (afind k st.cache).isNone
  | _ => true

/-- A run of cache operations as the server produces them (each operation
satisfies `serverOpOk` in the state it encounters). -/
def goodOps (st : CacheState) : List CacheOp → Bool
  | [] => true
  | op :: ops => serverOpOk st op && goodOps (stepOp st op) ops

/-- The inductive invariant of `SimpleCache` under server-shaped runs.  The
first two claimed properties are `live` and `indexed`; the remaining fields
(key-uniqueness of the two dicts, duplicate-freeness of the entry-sets,
`search:`-shaped cache keys, and the strengthened form of `live` recording
a witness record) are auxiliary facts needed for the induction. -/
structure CacheInv (st : CacheState) : Prop where
  nodupCache : (st.cache.map Prod.fst).Nodup
  nodupIdx : (st.idToKeys.map Prod.fst).Nodup
  nodupSets : ∀ p ∈ st.idToKeys, p.2.Nodup
  cacheSearch : ∀ q ∈ st.cache, q.1.startsWith "search:" = true
  live : ∀ p ∈ st.idToKeys, ∀ k ∈ p.2,
    ∃ e, afind k st.cache = some e ∧ ∃ r ∈ e.data, getRefId r = p.1
  indexed : ∀ q ∈ st.cache, ∀ r ∈ q.2.data,
    q.1 ∈ (afind (getRefId r) st.idToKeys).getD []

/-! ## Specification-side definitions

These are written from the *specification's words*, not from the source,
to be compared against the source-derived definitions above (refinement
claims). -/

/-- The DOI normalization exactly as the specification words it:
"lower-case, strip leading `https://doi.org/`, `http://doi.org/`, or
`doi:` prefixes" — and nothing else (in particular no whitespace
stripping). -/
def specNormalizeDoi (s : String) : String :=
  let d := pyLower s
  if d.startsWith "https://doi.org/" then d.drop 16
  else if d.startsWith "http://doi.org/" then d.drop 15
  else if d.startsWith "doi:" then d.drop 4
  else d

/-- A record's year as the specification ranks it: "year descending,
treating a missing year as the lowest possible value" — `Option Int`
ordered with `none` strictly below every year (`WithBot ℤ`). -/
def specYearRank (y : Option Int) : WithBot Int := y

/-- The ranking order exactly as the specification words it: aggregated
score descending, then year descending with a missing year as the lowest
possible value, then lower-cased title ascending. -/
def specRankLe (a b : Reference) : Prop :=
  b.score < a.score ∨
    (a.score = b.score ∧
      (specYearRank b.year < specYearRank a.year ∨
        (specYearRank a.year = specYearRank b.year ∧
          pyLower a.title ≤ pyLower b.title)))

instance : DecidableRel specRankLe := fun a b => by
  unfold specRankLe; infer_instance

/-- The ranking order the code actually implements, worded directly:
score descending, then year descending with a missing year treated as
year `0`, then lower-cased title ascending. -/
def codeRankLe (a b : Reference) : Prop :=
  b.score < a.score ∨
    (a.score = b.score ∧
      (b.year.getD 0 < a.year.getD 0 ∨
        (a.year.getD 0 = b.year.getD 0 ∧ pyLower a.title ≤ pyLower b.title)))

instance : DecidableRel codeRankLe := fun a b => by
  unfold codeRankLe; infer_instance

/-! ## Heap model of `dedupe_rank` (for the frame property)

The Python `dedupe_rank` operates on heap-allocated `Reference` objects:
the input is a list of references to cells, each accumulator is a fresh
cell holding a deep copy (`ref.model_copy(deep=True)`), and
`merge_with` writes only to the accumulator's cell while reading the later
record's cell.  (`merge_with` aliases the later record's `ProviderMeta`
entries into the accumulator's `sources` list, but nothing in `dedupe_rank`
ever mutates a `ProviderMeta`, so value semantics for `ProviderMeta` agree
with the heap.)  A `Store` is the heap: a list of cells indexed by
address. -/

instance : Inhabited Reference :=
  ⟨{ title := "", authors := [], bibtex := "" }⟩

/-- The heap: `Reference` cells indexed by address. -/
abbrev Store := List Reference

/-- Read the cell at address `a`. -/
def storeGet (st : Store) (a : Nat) : Reference :=
  List.getD st a default

/-- Allocate a fresh cell (returns the extended heap and the new address). -/
def storeAlloc (st : Store) (v : Reference) : Store × Nat :=
  (List.concat st v, List.length st)

/-- Overwrite the cell at address `a`. -/
def storeSet (st : Store) (a : Nat) (v : Reference) : Store :=
  List.set st a v

/-- Heap version of the inner `for j` scan: the accumulator lives in cell
`c`; every later record the accumulator duplicates is merged into cell `c`
in place, reading (never writing) the later record's cell. -/
def collectDupsH (c : Nat) : List Nat → Store → Store × List Nat
  | [], st => (st, [])
  | x :: xs, st =>
    if areDuplicates (storeGet st c) (storeGet st x) then
      collectDupsH c xs (storeSet st c ((storeGet st c).mergeWith (storeGet st x)))
    else
      let res := collectDupsH c xs st
      (res.1, x :: res.2)

/-- Heap version of the grouping scan: each head record is deep-copied
into a freshly allocated accumulator cell (`model_copy(deep=True)`). -/
def groupDupsH : Nat → List Nat → Store → Store × List Nat
  | _, [], st => (st, [])
  | 0, _ :: _, st => (st, [])
  | fuel + 1, a :: rest, st =>
    let p := storeAlloc st (storeGet st a)
    let q := collectDupsH p.2 rest p.1
    let g := groupDupsH fuel q.2 q.1
    (g.1, p.2 :: g.2)

/-- The sort order on addresses induced by the sort keys of the cells. -/
def heapRankLe (st : Store) (a b : Nat) : Prop :=
  sortKeyLe (storeGet st a) (storeGet st b)

instance (st : Store) : DecidableRel (heapRankLe st) := fun a b =>
  inferInstanceAs (Decidable (sortKeyLe (storeGet st a) (storeGet st b)))

/-- Heap version of `dedupe_rank`: group-and-merge on the heap, then sort
the accumulator addresses by their cells' sort keys and truncate.  Returns
the final heap and the addresses of the ranked output records. -/
def dedupeRankH (addrs : List Nat) (maxResults : Nat) (st : Store) :
    Store × List Nat :=
  if addrs.isEmpty then (st, [])
  else
    let g := groupDupsH addrs.length addrs st
    (g.1, (List.insertionSort (heapRankLe g.1) g.2).take maxResults)

/-! ## Concrete fixtures

Small concrete records and cache states used by the counterexamples and
witnesses below. -/

/-- A record carrying only an arXiv ID. -/
def fixArxivOnly : Reference :=
  { title := "aaaa", authors := [], arxiv_id := some "1" }

/-- A record carrying only a DOI. -/
def fixDoiOnly : Reference :=
  { title := "bbbb", authors := [], doi := some "d" }

/-- A record carrying the same arXiv ID as `fixArxivOnly` *and* the same
DOI as `fixDoiOnly` (the transitive-duplicate pivot). -/
def fixBridge : Reference :=
  { title := "cccc", authors := [], arxiv_id := some "1", doi := some "d" }

/-- DOI `"doi: x"`: after lower-casing alone the `doi:` marker is a prefix,
leaving `" x"`; the code's extra whitespace `strip` makes it normalize to
`" x"` as well (strip happens before the prefix test, so the inner space
survives). -/
def fixDoiSpacePrefixed : Reference :=
  { title := "t", authors := [], year := some 2000, doi := some "doi: x" }

/-- DOI `" x"`: the specification's normalization (lower-case + prefix
strip) leaves `" x"`; the code's normalization strips to `"x"`. -/
def fixDoiSpaceBare : Reference :=
  { title := "t", authors := [], year := some 2001, doi := some " x" }

/-- Records with DOIs equal under the code's normalization. -/
def fixDoiUpper : Reference :=
  { title := "first", authors := [], year := some 1999, doi := some "DOI:10.1/a" }

/-- See `fixDoiUpper`. -/
def fixDoiLower : Reference :=
  { title := "second", authors := [], year := some 2003, doi := some "10.1/A" }

/-- An accumulator with a nonzero aggregated score but no scored source. -/
def fixScored7 : Reference :=
  { title := "t1", authors := [],
    sources := [{ name := "p" }], score := 7 }

/-- A record with one unscored source. -/
def fixUnscored : Reference :=
  { title := "t2", authors := [], sources := [{ name := "q" }] }

/-- One provider entry with relevance score 50. -/
def fixScore50 : Reference :=
  { title := "t", authors := [],
    sources := [{ name := "A", relevance_score := some 50 }], score := 50 }

/-- One provider entry with relevance score 80. -/
def fixScore80 : Reference :=
  { title := "t", authors := [],
    sources := [{ name := "B", relevance_score := some 80 }], score := 80 }

/-- Missing year, title `"a"`. -/
def fixNoYear : Reference := { title := "a", authors := [] }

/-- Year `0`, title `"b"`. -/
def fixYearZero : Reference := { title := "b", authors := [], year := some 0 }

/-- A real-world arXiv identifier from the `solv-int` archive; its only
`v` characters are part of the archive name, not a version suffix. -/
def fixSolvInt1 : Reference :=
  { title := "aaaa", authors := [], arxiv_id := some "solv-int/9901001" }

/-- A *different* `solv-int` paper. -/
def fixSolvInt2 : Reference :=
  { title := "bbbb", authors := [], arxiv_id := some "solv-int/9902002" }

/-- A cache state holding one fresh `search:` entry with one DOI record. -/
def fixCacheOneEntry : CacheState :=
  cacheSet "search:a" [fixDoiOnly] 0 (SimpleCache.init 10)

/-- A server-shaped operation sequence: one set, a hit, a point lookup and
a sweep. -/
def fixGoodRun : List CacheOp :=
  [CacheOp.set "search:a" [fixDoiOnly] 0, CacheOp.get "search:a" 5,
    CacheOp.getById "d" 7, CacheOp.clearExpired 20]

/-! # Theorems

## Helper lemmas on the dedupe/rank pipeline -/

/-- The inner scan never lengthens the remainder (so `l.length` is always
enough fuel for `groupDupsF`). -/
theorem collectDups_snd_length (cur : Reference) (l : List Reference) :
    (collectDups cur l).2.length ≤ l.length := by
  induction l generalizing cur with
  | nil => simp [collectDups]
  | cons x xs ih =>
    simp only [collectDups]
    split
    · exact Nat.le_succ_of_le (ih _)
    · simpa using Nat.succ_le_succ (ih cur)

/-- If the accumulator duplicates nothing in the tail, the inner scan is a
no-op. -/
theorem collectDups_of_not_dup (cur : Reference) (l : List Reference)
    (h : ∀ x ∈ l, areDuplicates cur x = false) :
    collectDups cur l = (cur, l) := by
  induction l with
  | nil => rfl
  | cons x xs ih =>
    have hx : areDuplicates cur x = false := h x (by simp)
    simp [collectDups, hx, ih fun y hy => h y (List.mem_cons_of_mem x hy)]

/-- On a pairwise duplicate-free list (with enough fuel) the grouping scan
is the identity. -/
theorem groupDupsF_eq_self (fuel : Nat) (l : List Reference)
    (hf : l.length ≤ fuel)
    (h : l.Pairwise fun a b => areDuplicates a b = false) :
    groupDupsF fuel l = l := by
  induction fuel generalizing l with
  | zero =>
    cases l with
    | nil => rfl
    | cons r rest => simp at hf
  | succ fuel ih =>
    cases l with
    | nil => rfl
    | cons r rest =>
      rcases List.pairwise_cons.mp h with ⟨hr, hrest⟩
      have hc : collectDups r rest = (r, rest) := collectDups_of_not_dup r rest hr
      simp only [groupDupsF, hc]
      rw [ih rest (by simp at hf; omega) hrest]

/-- On a pairwise duplicate-free list the grouping scan is the identity. -/
theorem groupDups_eq_self (l : List Reference)
    (h : l.Pairwise fun a b => areDuplicates a b = false) :
    groupDups l = l :=
  groupDupsF_eq_self l.length l le_rfl h

/-- `dedupe_rank` output is sorted by the code's sort-key order. -/
theorem dedupeRank_sorted (rs : List Reference) (m : Nat) :
    (dedupeRank rs m).Sorted sortKeyLe := by
  unfold dedupeRank
  split
  · exact List.sorted_nil
  · exact (List.sorted_insertionSort _ _).sublist (List.take_sublist _ _)

/-- `dedupe_rank` returns at most `max_results` records. -/
theorem dedupeRank_length_le (rs : List Reference) (m : Nat) :
    (dedupeRank rs m).length ≤ m := by
  unfold dedupeRank
  split
  · simp
  · exact List.length_take_le _ _

/-- `orderedInsert` only depends on the order through its truth values. -/
theorem orderedInsert_congr {r s : Reference → Reference → Prop}
    [DecidableRel r] [DecidableRel s] (h : ∀ a b, r a b ↔ s a b)
    (a : Reference) (l : List Reference) :
    List.orderedInsert r a l = List.orderedInsert s a l := by
  induction l with
  | nil => rfl
  | cons b bs ih =>
    simp only [List.orderedInsert]
    by_cases hr : r a b
    · rw [if_pos hr, if_pos ((h a b).mp hr)]
    · rw [if_neg hr, if_neg fun hs => hr ((h a b).mpr hs), ih]

/-- `insertionSort` only depends on the order through its truth values. -/
theorem insertionSort_congr {r s : Reference → Reference → Prop}
    [DecidableRel r] [DecidableRel s] (h : ∀ a b, r a b ↔ s a b)
    (l : List Reference) :
    List.insertionSort r l = List.insertionSort s l := by
  induction l with
  | nil => rfl
  | cons b bs ih =>
    simp only [List.insertionSort]
    rw [ih, orderedInsert_congr h]

/-- The code's tuple sort key realizes exactly: score descending, then
year descending with a missing year treated as year 0, then lower-cased
title ascending. -/
theorem sortKeyLe_iff_codeRankLe (a b : Reference) :
    sortKeyLe a b ↔ codeRankLe a b := by
  simp only [sortKeyLe, codeRankLe, sortKey, neg_lt_neg_iff, neg_inj]

/-! ## C1 — idempotence of `dedupe_rank` -/

/-- C1 (counterexample): `dedupe_rank` is *not* idempotent.  Merging can
copy a hard identifier into an accumulator (here `fixBridge` donates DOI
`"d"` to the group of `fixArxivOnly`), after which two output records are
duplicates of each other, so re-applying `dedupe_rank` with the same
`max_results` merges them and returns a shorter list. -/
theorem dedupe_rank_not_idempotent_counterexample :
    dedupeRank (dedupeRank [fixArxivOnly, fixDoiOnly, fixBridge] 10) 10 ≠
      dedupeRank [fixArxivOnly, fixDoiOnly, fixBridge] 10 :=
  of_decide_eq_true (by with_unfolding_all rfl)

/-- C1 (amended): `dedupe_rank` is deterministic (it is a function), and
re-applying it to its own output with an equal or larger `max_results`
yields the same list *provided* no two records of that output are
duplicates of each other (which transitive merging can violate, see the
counterexample). -/
theorem dedupe_rank_idempotent_on_duplicate_free_output
    (rs : List Reference) (m m' : Nat) (hm : m ≤ m')
    (hnd : (dedupeRank rs m).Pairwise fun a b => areDuplicates a b = false) :
    dedupeRank (dedupeRank rs m) m' = dedupeRank rs m := by
  by_cases hnil : dedupeRank rs m = []
  · rw [hnil]
    rfl
  · have h1 : groupDups (dedupeRank rs m) = dedupeRank rs m :=
      groupDups_eq_self _ hnd
    have h2 : List.insertionSort sortKeyLe (dedupeRank rs m) = dedupeRank rs m :=
      (dedupeRank_sorted rs m).insertionSort_eq
    have h3 : (dedupeRank rs m).take m' = dedupeRank rs m :=
      List.take_of_length_le (le_trans (dedupeRank_length_le rs m) hm)
    conv_lhs => rw [dedupeRank]
    rw [if_neg (by simp [List.isEmpty_iff, hnil]), h1, h2, h3]

/-- C1 (witness): the idempotence theorem applied to a concrete
duplicate-free two-record input with `max_results` 2 then 3. -/
theorem dedupe_rank_idempotent_witness :
    dedupeRank (dedupeRank [fixArxivOnly, fixDoiOnly] 2) 3 =
      dedupeRank [fixArxivOnly, fixDoiOnly] 2 :=
  dedupe_rank_idempotent_on_duplicate_free_output [fixArxivOnly, fixDoiOnly] 2 3
    (by decide) (of_decide_eq_true (by with_unfolding_all rfl))

/-! ## C4 — the ranking order -/

/-- C4 (counterexample): the ranker does not treat a missing year as the
lowest possible value — it treats it as year `0`.  With equal scores, a
missing-year record (title `"a"`) and a year-`0` record (title `"b"`) tie
on the year component and are ordered by title, whereas the claimed order
(missing year strictly lowest) would put the year-`0` record first. -/
theorem dedupe_rank_missing_year_counterexample :
    dedupeRank [fixNoYear, fixYearZero] 5 ≠
      (List.insertionSort specRankLe (groupDups [fixNoYear, fixYearZero])).take 5 :=
  of_decide_eq_true (by with_unfolding_all rfl)

/-- C4 (amended): `dedupe_rank` sorts the merged records by aggregated
score descending, then year descending with a *missing year treated as
year 0* (`-(year or 0)`), then lower-cased title ascending, and truncates
the stable-sorted list to `max_results`. -/
theorem dedupe_rank_ranks_by_code_order (rs : List Reference) (m : Nat) :
    dedupeRank rs m = (List.insertionSort codeRankLe (groupDups rs)).take m := by
  unfold dedupeRank
  split
  · rename_i h
    rw [List.isEmpty_iff.mp h]
    simp [groupDups, groupDupsF]
  · rw [insertionSort_congr sortKeyLe_iff_codeRankLe]

/-! ## C2 — equal normalized DOIs imply duplication -/

/-- C2 (counterexample): under the *specification's* DOI normalization
(lower-case + leading-marker strip, no whitespace strip), `"doi: x"` and
`" x"` both normalize to `" x"`; but the code additionally strips
whitespace *before* the marker test, normalizing them to `" x"` and `"x"`
respectively, so the DOI rule does not fire and the records (same title,
different years) are not duplicates. -/
theorem spec_doi_normalization_counterexample :
    specNormalizeDoi "doi: x" = specNormalizeDoi " x" ∧
      areDuplicates fixDoiSpacePrefixed fixDoiSpaceBare = false :=
  ⟨of_decide_eq_true (by with_unfolding_all rfl), by with_unfolding_all rfl⟩

/-- C2 (amended): for any two records that both carry a truthy DOI, if the
*code's* normalized forms (lower-case, strip surrounding whitespace, then
strip one leading `https://doi.org/` / `http://doi.org/` / `doi:` marker)
are equal then `_are_duplicates` is true, regardless of any difference in
titles, authors, or years. -/
theorem are_duplicates_of_equal_normalized_doi (a b : Reference)
    (ha : strTruthy a.doi = true) (hb : strTruthy b.doi = true)
    (h : normalizeDoi a.doi = normalizeDoi b.doi) :
    areDuplicates a b = true := by
  simp [areDuplicates, ha, hb, h]

/-- C2 (witness): records `fixDoiUpper` (`"DOI:10.1/a"`, year 1999, title
`"first"`) and `fixDoiLower` (`"10.1/A"`, year 2003, title `"second"`)
both normalize to `"10.1/a"` and are recognized as duplicates. -/
theorem are_duplicates_of_equal_normalized_doi_witness :
    areDuplicates fixDoiUpper fixDoiLower = true :=
  are_duplicates_of_equal_normalized_doi fixDoiUpper fixDoiLower
    (by with_unfolding_all rfl) (by with_unfolding_all rfl)
    (by with_unfolding_all rfl)

/-! ## C3 — merge semantics: sources append, score recomputation -/

/-- C3 (counterexample): when the merged `sources` list has *no* non-null
`relevance_score`, the code leaves the accumulator's previous score in
place instead of recomputing it to 0: merging two unscored one-provider
records into an accumulator with score 7 keeps score 7. -/
theorem merge_with_score_not_reset_counterexample :
    ((fixScored7.mergeWith fixUnscored).sources.filterMap
        (fun s => s.relevance_score)) = [] ∧
      (fixScored7.mergeWith fixUnscored).score = 7 ∧
      (fixScored7.mergeWith fixUnscored).score ≠ 0 :=
  ⟨by with_unfolding_all rfl, by with_unfolding_all rfl,
    of_decide_eq_true (by with_unfolding_all rfl)⟩

/-- C3 (amended): merging `b` into `a` appends all of `b`'s `ProviderMeta`
entries to `a`'s `sources` (never deduplicated), and the aggregated score
becomes the arithmetic mean of all non-null `relevance_score` values across
the merged `sources` list — *left unchanged* (not reset to 0) when none are
present.  In particular, merging two one-provider records with relevance
scores 50 and 80 yields score 65 and a `sources` list of length 2. -/
theorem merge_with_sources_append_and_score_mean :
    (∀ a b : Reference,
      (a.mergeWith b).sources = a.sources ++ b.sources ∧
      (a.mergeWith b).score =
        (if ((a.sources ++ b.sources).filterMap
              (fun s => s.relevance_score)).isEmpty
         then a.score
         else ((a.sources ++ b.sources).filterMap
              (fun s => s.relevance_score)).sum /
           (((a.sources ++ b.sources).filterMap
              (fun s => s.relevance_score)).length : ℚ))) ∧
    (fixScore50.mergeWith fixScore80).score = 65 ∧
    (fixScore50.mergeWith fixScore80).sources.length = 2 := by
  refine ⟨fun a b => ⟨?_, ?_⟩, by with_unfolding_all rfl, rfl⟩
  · simp [Reference.mergeWith]
  · simp [Reference.mergeWith]

/-! ## C5 — fanout: ordering and failure isolation -/

/-- C5: `fanout` returns the concatenation, in provider-call order, of each
provider's own result list in that provider's own order; a provider whose
call times out or raises contributes the empty list, and the surrounding
providers' results are unaffected.  (The async execution is abstracted by
each provider's `SearchOutcome`; `fanout` is a total function, so no
exception escapes.) -/
theorem fanout_order_and_failure_isolation :
    (∀ outcomes : List SearchOutcome,
      fanout outcomes = (outcomes.map searchWithTimeout).flatten) ∧
    (∀ pre post : List SearchOutcome, ∀ o : SearchOutcome,
      fanout (pre ++ o :: post) =
        fanout pre ++ searchWithTimeout o ++ fanout post) ∧
    (∀ rs : List Reference, searchWithTimeout (SearchOutcome.ok rs) = rs) ∧
    searchWithTimeout SearchOutcome.timedOut = [] ∧
    searchWithTimeout SearchOutcome.failed = [] := by
  refine ⟨fun outcomes => rfl, fun pre post o => ?_, fun rs => rfl, rfl, rfl⟩
  simp [fanout]

/-! ## C6 — arXiv ID normalization -/

/-- C6 (code bug): `_normalize_arxiv_id` splits at the *first* literal `v`
(`arxiv_id.split("v")[0]`), not at a trailing version suffix.  For the
real arXiv archive `solv-int`, the identifier `solv-int/9901001` is
truncated to `"sol"` instead of being left unchanged, and two *different*
`solv-int` papers are consequently declared duplicates.  (The intended
trailing-version case, e.g. `1706.03762v2 → 1706.03762`, does work.) -/
theorem normalize_arxiv_truncates_at_first_v :
    normalizeArxivId (some "solv-int/9901001") = some "sol" ∧
      normalizeArxivId (some "1706.03762v2") = some "1706.03762" ∧
      areDuplicates fixSolvInt1 fixSolvInt2 = true :=
  ⟨by with_unfolding_all rfl, by with_unfolding_all rfl,
    by with_unfolding_all rfl⟩

/-! ## Helper lemmas on the association-list dictionary operations -/

section AssocLemmas

variable {α : Type}

theorem afind_aset_self (k : String) (v : α) (m : List (String × α)) :
    afind k (aset k v m) = some v := by
  induction m with
  | nil => simp [aset, afind]
  | cons p rest ih =>
    by_cases hp : p.1 = k
    · simp [aset, hp, afind]
    · simp [aset, hp, afind, ih]

theorem afind_aset_ne (k k' : String) (v : α) (m : List (String × α))
    (h : k' ≠ k) : afind k' (aset k v m) = afind k' m := by
  have hk : k ≠ k' := Ne.symm h
  induction m with
  | nil => simp [aset, afind, hk]
  | cons p rest ih =>
    by_cases hp : p.1 = k
    · have hp' : p.1 ≠ k' := by rw [hp]; exact hk
      simp [aset, hp, afind, hk, hp']
    · by_cases hp' : p.1 = k'
      · simp [aset, afind, hp', h]
      · simp [aset, hp, afind, hp', ih]

theorem afind_adel_self (k : String) (m : List (String × α)) :
    afind k (adel k m) = none := by
  induction m with
  | nil => rfl
  | cons p rest ih =>
    by_cases hp : p.1 = k
    · simpa [adel, hp] using ih
    · simpa [adel, hp, afind] using ih

theorem afind_adel_ne (k k' : String) (m : List (String × α)) (h : k' ≠ k) :
    afind k' (adel k m) = afind k' m := by
  induction m with
  | nil => rfl
  | cons p rest ih =>
    by_cases hp : p.1 = k
    · simpa [adel, hp, afind, Ne.symm h] using ih
    · by_cases hp' : p.1 = k'
      · simp [adel, afind, hp', h]
      · simpa [adel, hp, afind, hp'] using ih

theorem afind_append (k : String) (m m' : List (String × α)) :
    afind k (m ++ m') = ((afind k m).orElse fun _ => afind k m') := by
  induction m with
  | nil => simp [afind]
  | cons p rest ih =>
    by_cases hp : p.1 = k
    · simp [afind, hp]
    · simp [afind, hp, ih]

theorem afind_eq_none_iff (k : String) (m : List (String × α)) :
    afind k m = none ↔ k ∉ m.map Prod.fst := by
  induction m with
  | nil => simp [afind]
  | cons p rest ih =>
    by_cases hp : p.1 = k
    · simp [afind, hp]
    · simp [afind, hp, ih, Ne.symm hp]

theorem mem_of_afind_eq_some {k : String} {v : α} {m : List (String × α)}
    (h : afind k m = some v) : (k, v) ∈ m := by
  induction m with
  | nil => simp [afind] at h
  | cons p rest ih =>
    by_cases hp : p.1 = k
    · have hp2 : p.2 = v := by simpa [afind, hp] using h
      have hpe : p = (k, v) := by
        cases p with
        | mk a b =>
          simp only at hp hp2
          rw [hp, hp2]
      exact hpe ▸ List.mem_cons_self p rest
    · simp [afind, hp] at h
      exact List.mem_cons_of_mem p (ih h)

theorem afind_eq_some_of_mem_nodup {k : String} {v : α}
    {m : List (String × α)} (hn : (m.map Prod.fst).Nodup)
    (h : (k, v) ∈ m) : afind k m = some v := by
  induction m with
  | nil => simp at h
  | cons p rest ih =>
    rcases List.mem_cons.mp h with he | hm
    · simp [afind, ← he]
    · simp only [List.map_cons] at hn
      have hnot : p.1 ∉ rest.map Prod.fst := (List.nodup_cons.mp hn).1
      have hrest : (rest.map Prod.fst).Nodup := (List.nodup_cons.mp hn).2
      have hp : p.1 ≠ k := fun hc =>
        (hc ▸ hnot) (List.mem_map.mpr ⟨(k, v), hm, rfl⟩)
      simp only [afind, hp, if_false]
      exact ih hrest hm

theorem aset_eq_append_of_none (k : String) (v : α) (m : List (String × α))
    (h : afind k m = none) : aset k v m = m ++ [(k, v)] := by
  induction m with
  | nil => rfl
  | cons p rest ih =>
    by_cases hp : p.1 = k
    · simp [afind, hp] at h
    · simp [afind, hp] at h
      simp [aset, hp, ih h]

theorem map_fst_aset_of_some (k : String) (v : α) (m : List (String × α))
    (h : ∃ w, afind k m = some w) :
    (aset k v m).map Prod.fst = m.map Prod.fst := by
  induction m with
  | nil => rcases h with ⟨w, hw⟩; simp [afind] at hw
  | cons p rest ih =>
    by_cases hp : p.1 = k
    · simp [aset, hp]
    · rcases h with ⟨w, hw⟩
      simp [afind, hp] at hw
      simp [aset, hp, ih ⟨w, hw⟩]

theorem mem_aset {p : String × α} {k : String} {v : α}
    {m : List (String × α)} (h : p ∈ aset k v m) : p = (k, v) ∨ p ∈ m := by
  induction m with
  | nil => simpa [aset] using h
  | cons q rest ih =>
    by_cases hq : q.1 = k
    · rcases List.mem_cons.mp (by simpa [aset, hq] using h) with he | hm
      · exact Or.inl he
      · exact Or.inr (List.mem_cons_of_mem q hm)
    · rcases List.mem_cons.mp (by simpa [aset, hq] using h) with he | hm
      · exact Or.inr (he ▸ List.mem_cons_self q rest)
      · rcases ih hm with h1 | h2
        · exact Or.inl h1
        · exact Or.inr (List.mem_cons_of_mem q h2)

theorem adel_sublist (k : String) (m : List (String × α)) :
    List.Sublist (adel k m) m :=
  List.filter_sublist m

theorem mem_adel {p : String × α} {k : String} {m : List (String × α)}
    (h : p ∈ adel k m) : p ∈ m ∧ p.1 ≠ k := by
  have := List.mem_filter.mp h
  simpa using this

end AssocLemmas

/-! ## Helper lemmas on the secondary-index updates -/

theorem afind_discardKey_self (key rid : String)
    (m : List (String × List String)) :
    afind rid (discardKey key rid m) =
      match afind rid m with
      | none => none
      | some ks => if (ks.erase key).isEmpty then none else some (ks.erase key) := by
  unfold discardKey
  cases h : afind rid m with
  | none => simp [h]
  | some ks =>
    by_cases he : (ks.erase key).isEmpty
    · simp [he, afind_adel_self]
    · simp [he, afind_aset_self]

theorem afind_discardKey_ne (key rid rid' : String)
    (m : List (String × List String)) (h : rid' ≠ rid) :
    afind rid' (discardKey key rid m) = afind rid' m := by
  unfold discardKey
  cases hf : afind rid m with
  | none => rfl
  | some ks =>
    by_cases he : (ks.erase key).isEmpty
    · simp [he, afind_adel_ne _ _ _ h]
    · simp [he, afind_aset_ne _ _ _ _ h]

theorem nodupFst_discardKey (key rid : String)
    (m : List (String × List String)) (hn : (m.map Prod.fst).Nodup) :
    ((discardKey key rid m).map Prod.fst).Nodup := by
  unfold discardKey
  cases hf : afind rid m with
  | none => exact hn
  | some ks =>
    by_cases he : (ks.erase key).isEmpty
    · simpa [he] using hn.sublist ((adel_sublist rid m).map Prod.fst)
    · simpa [he, map_fst_aset_of_some _ _ _ ⟨ks, hf⟩] using hn

theorem nodupSets_discardKey (key rid : String)
    (m : List (String × List String)) (hs : ∀ p ∈ m, p.2.Nodup) :
    ∀ p ∈ discardKey key rid m, p.2.Nodup := by
  unfold discardKey
  cases hf : afind rid m with
  | none => exact hs
  | some ks =>
    by_cases he : (ks.erase key).isEmpty
    · simp only [he, if_true]
      exact fun p hp => hs p (mem_adel hp).1
    · simp only [he, if_false]
      intro p hp
      rcases mem_aset hp with hpe | hm
      · rw [hpe]
        exact (hs (rid, ks) (mem_of_afind_eq_some hf)).erase key
      · exact hs p hm

theorem removeIdx_cons (key : String) (r : Reference) (rest : List Reference)
    (m : List (String × List String)) :
    removeIdx key (r :: rest) m =
      removeIdx key rest (discardKey key (getRefId r) m) := rfl

/-- Characterization of the index after `_remove_entry`'s cleanup: the
entry-set of every identifier carried by some removed record loses `key`
(and disappears if that empties it); all other entry-sets are untouched. -/
theorem afind_removeIdx (key : String) (data : List Reference)
    (m : List (String × List String)) (hs : ∀ p ∈ m, p.2.Nodup)
    (rid : String) :
    afind rid (removeIdx key data m) =
      (if rid ∈ data.map getRefId then
        match afind rid m with
        | none => none
        | some ks => if (ks.erase key).isEmpty then none else some (ks.erase key)
      else afind rid m) := by
  induction data generalizing m with
  | nil => simp [removeIdx]
  | cons r rest ih =>
    rw [removeIdx_cons]
    rw [ih _ (nodupSets_discardKey _ _ _ hs)]
    by_cases hr : rid = getRefId r
    · rw [hr]
      have hcons : getRefId r ∈ List.map getRefId (r :: rest) := by
        rw [List.map_cons]
        exact List.mem_cons_self _ _
      rw [if_pos hcons, afind_discardKey_self]
      by_cases hmem : getRefId r ∈ rest.map getRefId
      · rw [if_pos hmem]
        cases hfm : afind (getRefId r) m with
        | none => simp
        | some ks =>
          have hnd : ks.Nodup := hs (getRefId r, ks) (mem_of_afind_eq_some hfm)
          have herase : (ks.erase key).erase key = ks.erase key :=
            List.erase_of_not_mem
              (fun hmem' => ((hnd.mem_erase_iff).mp hmem').1 rfl)
          by_cases he : (ks.erase key).isEmpty
          · simp [he]
          · simp [he, herase]
      · rw [if_neg hmem]
    · rw [afind_discardKey_ne _ _ _ _ hr]
      by_cases hmem : rid ∈ rest.map getRefId
      · have hcons : rid ∈ List.map getRefId (r :: rest) := by
          rw [List.map_cons]
          exact List.mem_cons_of_mem _ hmem
        rw [if_pos hmem, if_pos hcons]
      · have hcons : rid ∉ List.map getRefId (r :: rest) := by
          rw [List.map_cons]
          simp only [List.mem_cons]
          rintro (h1 | h2)
          · exact hr h1
          · exact hmem h2
        rw [if_neg hmem, if_neg hcons]

theorem nodupFst_removeIdx (key : String) (data : List Reference)
    (m : List (String × List String)) (hn : (m.map Prod.fst).Nodup) :
    ((removeIdx key data m).map Prod.fst).Nodup := by
  induction data generalizing m with
  | nil => exact hn
  | cons r rest ih =>
    rw [removeIdx_cons]
    exact ih _ (nodupFst_discardKey _ _ _ hn)

theorem nodupSets_removeIdx (key : String) (data : List Reference)
    (m : List (String × List String)) (hs : ∀ p ∈ m, p.2.Nodup) :
    ∀ p ∈ removeIdx key data m, p.2.Nodup := by
  induction data generalizing m with
  | nil => exact hs
  | cons r rest ih =>
    rw [removeIdx_cons]
    exact ih _ (nodupSets_discardKey _ _ _ hs)

theorem afind_addKeyToId_self (rid key : String)
    (m : List (String × List String)) :
    afind rid (addKeyToId rid key m) =
      some (match afind rid m with
        | none => [key]
        | some ks => if key ∈ ks then ks else ks ++ [key]) := by
  unfold addKeyToId
  cases hf : afind rid m with
  | none => simp [afind_append, hf, afind]
  | some ks => simp [afind_aset_self]

theorem afind_addKeyToId_ne (rid rid' key : String)
    (m : List (String × List String)) (h : rid' ≠ rid) :
    afind rid' (addKeyToId rid key m) = afind rid' m := by
  unfold addKeyToId
  cases hf : afind rid m with
  | none =>
    rw [afind_append]
    cases hf' : afind rid' m <;> simp [afind, h, Ne.symm h]
  | some ks => simp [afind_aset_ne _ _ _ _ h]

theorem mem_getD_addKeyToId (rid rid' key k' : String)
    (m : List (String × List String))
    (h : k' ∈ (afind rid' m).getD []) :
    k' ∈ (afind rid' (addKeyToId rid key m)).getD [] := by
  by_cases hr : rid' = rid
  · subst hr
    rw [afind_addKeyToId_self]
    cases hf : afind rid' m with
    | none => rw [hf] at h; simp at h
    | some ks =>
      rw [hf] at h
      simp only [Option.getD_some] at h ⊢
      by_cases hk : key ∈ ks <;> simp [hk, h]
  · rw [afind_addKeyToId_ne _ _ _ _ hr]
    exact h

theorem key_mem_addKeyToId (rid key : String)
    (m : List (String × List String)) :
    key ∈ (afind rid (addKeyToId rid key m)).getD [] := by
  rw [afind_addKeyToId_self]
  cases afind rid m with
  | none => simp
  | some ks => by_cases hk : key ∈ ks <;> simp [hk]

theorem mem_getD_addKeyToId_inv (rid rid' key k' : String)
    (m : List (String × List String))
    (h : k' ∈ (afind rid' (addKeyToId rid key m)).getD []) :
    k' ∈ (afind rid' m).getD [] ∨ (k' = key ∧ rid' = rid) := by
  by_cases hr : rid' = rid
  · subst hr
    rw [afind_addKeyToId_self] at h
    cases hf : afind rid' m with
    | none =>
      rw [hf] at h
      simp at h
      exact Or.inr ⟨h, rfl⟩
    | some ks =>
      rw [hf] at h
      simp only [Option.getD_some] at h
      by_cases hk : key ∈ ks
      · rw [if_pos hk] at h
        exact Or.inl (by simpa [hf] using h)
      · rw [if_neg hk] at h
        rcases List.mem_append.mp h with h1 | h2
        · exact Or.inl (by simpa [hf] using h1)
        · exact Or.inr ⟨by simpa using h2, rfl⟩
  · rw [afind_addKeyToId_ne _ _ _ _ hr] at h
    exact Or.inl h

theorem nodupFst_addKeyToId (rid key : String)
    (m : List (String × List String)) (hn : (m.map Prod.fst).Nodup) :
    ((addKeyToId rid key m).map Prod.fst).Nodup := by
  unfold addKeyToId
  cases hf : afind rid m with
  | none =>
    have hni : rid ∉ m.map Prod.fst := (afind_eq_none_iff _ _).mp hf
    rw [List.map_append]
    exact hn.append (List.nodup_singleton _)
      (by simpa [List.disjoint_singleton] using hni)
  | some ks =>
    rw [map_fst_aset_of_some _ _ _ ⟨ks, hf⟩]
    exact hn

theorem nodupSets_addKeyToId (rid key : String)
    (m : List (String × List String)) (hs : ∀ p ∈ m, p.2.Nodup) :
    ∀ p ∈ addKeyToId rid key m, p.2.Nodup := by
  unfold addKeyToId
  cases hf : afind rid m with
  | none =>
    intro p hp
    rcases List.mem_append.mp hp with hm | hsing
    · exact hs p hm
    · simp only [List.mem_singleton] at hsing
      rw [hsing]
      exact List.nodup_singleton _
  | some ks =>
    intro p hp
    rcases mem_aset hp with hpe | hm
    · rw [hpe]
      by_cases hk : key ∈ ks
      · simpa [hk] using hs (rid, ks) (mem_of_afind_eq_some hf)
      · simp only [hk, if_false]
        exact (hs (rid, ks) (mem_of_afind_eq_some hf)).append
          (List.nodup_singleton _)
          (by simpa [List.disjoint_singleton] using hk)
    · exact hs p hm

theorem mem_getD_addFold (key : String) (data : List Reference)
    (m : List (String × List String)) (rid' k' : String)
    (h : k' ∈ (afind rid' m).getD []) :
    k' ∈ (afind rid'
      (data.foldl (fun m r => addKeyToId (getRefId r) key m) m)).getD [] := by
  induction data generalizing m with
  | nil => exact h
  | cons r rest ih => exact ih _ (mem_getD_addKeyToId _ _ _ _ _ h)

theorem key_mem_addFold (key : String) (data : List Reference)
    (m : List (String × List String)) (r : Reference) (hr : r ∈ data) :
    key ∈ (afind (getRefId r)
      (data.foldl (fun m r => addKeyToId (getRefId r) key m) m)).getD [] := by
  induction data generalizing m with
  | nil => cases hr
  | cons x rest ih =>
    rcases List.mem_cons.mp hr with he | hm
    · rw [he]
      exact mem_getD_addFold key rest _ _ _ (key_mem_addKeyToId _ _ _)
    · exact ih _ hm

theorem mem_getD_addFold_inv (key : String) (data : List Reference)
    (m : List (String × List String)) (rid' k' : String)
    (h : k' ∈ (afind rid'
      (data.foldl (fun m r => addKeyToId (getRefId r) key m) m)).getD []) :
    k' ∈ (afind rid' m).getD [] ∨
      (k' = key ∧ ∃ r ∈ data, getRefId r = rid') := by
  induction data generalizing m with
  | nil => exact Or.inl h
  | cons r rest ih =>
    rcases ih _ h with h1 | h2
    · rcases mem_getD_addKeyToId_inv _ _ _ _ _ h1 with h3 | ⟨hk, hrid⟩
      · exact Or.inl h3
      · exact Or.inr ⟨hk, r, List.mem_cons_self _ _, hrid.symm⟩
    · rcases h2 with ⟨hk, r', hr', hrid⟩
      exact Or.inr ⟨hk, r', List.mem_cons_of_mem _ hr', hrid⟩

theorem nodupFst_addFold (key : String) (data : List Reference)
    (m : List (String × List String)) (hn : (m.map Prod.fst).Nodup) :
    (((data.foldl (fun m r => addKeyToId (getRefId r) key m) m)).map
      Prod.fst).Nodup := by
  induction data generalizing m with
  | nil => exact hn
  | cons r rest ih => exact ih _ (nodupFst_addKeyToId _ _ _ hn)

theorem nodupSets_addFold (key : String) (data : List Reference)
    (m : List (String × List String)) (hs : ∀ p ∈ m, p.2.Nodup) :
    ∀ p ∈ data.foldl (fun m r => addKeyToId (getRefId r) key m) m,
      p.2.Nodup := by
  induction data generalizing m with
  | nil => exact hs
  | cons r rest ih => exact ih _ (nodupSets_addKeyToId _ _ _ hs)

/-! ## Preservation of the cache invariant -/

theorem removeEntry_inv (key : String) (st : CacheState) (h : CacheInv st) :
    CacheInv (removeEntry key st) := by
  unfold removeEntry
  cases hfind : afind key st.cache with
  | none => exact h
  | some e =>
    have hsearch : key.startsWith "search:" = true :=
      h.cacheSearch (key, e) (mem_of_afind_eq_some hfind)
    rw [hsearch]
    simp only [if_true]
    constructor
    · exact h.nodupCache.sublist ((adel_sublist key st.cache).map Prod.fst)
    · exact nodupFst_removeIdx _ _ _ h.nodupIdx
    · exact nodupSets_removeIdx _ _ _ h.nodupSets
    · exact fun q hq => h.cacheSearch q (mem_adel hq).1
    · -- live
      intro p hp k hk
      have hfindp : afind p.1 (removeIdx key e.data st.idToKeys) = some p.2 :=
        afind_eq_some_of_mem_nodup (nodupFst_removeIdx _ _ _ h.nodupIdx)
          (by simpa using hp)
      rw [afind_removeIdx _ _ _ h.nodupSets] at hfindp
      by_cases hmem : p.1 ∈ e.data.map getRefId
      · rw [if_pos hmem] at hfindp
        cases hfm : afind p.1 st.idToKeys with
        | none => rw [hfm] at hfindp; simp at hfindp
        | some ks =>
          rw [hfm] at hfindp
          by_cases he : (ks.erase key).isEmpty
          · simp [he] at hfindp
          · simp only [he, Bool.false_eq_true, if_false,
              Option.some.injEq] at hfindp
            have hp2 : p.2 = ks.erase key := hfindp.symm
            have hnd : ks.Nodup :=
              h.nodupSets (p.1, ks) (mem_of_afind_eq_some hfm)
            have hk' : k ∈ ks ∧ k ≠ key := by
              rw [hp2] at hk
              exact ⟨List.mem_of_mem_erase hk,
                ((hnd.mem_erase_iff).mp hk).1⟩
            rcases h.live (p.1, ks) (mem_of_afind_eq_some hfm) k hk'.1 with
              ⟨e', he', r', hr', hid⟩
            exact ⟨e', by rw [afind_adel_ne _ _ _ hk'.2]; exact he',
              r', hr', hid⟩
      · rw [if_neg hmem] at hfindp
        rcases h.live (p.1, p.2) (mem_of_afind_eq_some hfindp) k hk with
          ⟨e', he', r', hr', hid⟩
        have hkne : k ≠ key := by
          intro hke
          rw [hke, hfind] at he'
          cases he'
          exact hmem (List.mem_map.mpr ⟨r', hr', hid⟩)
        exact ⟨e', by rw [afind_adel_ne _ _ _ hkne]; exact he', r', hr', hid⟩
    · -- indexed
      intro q hq r hr
      have hq' : q ∈ st.cache ∧ q.1 ≠ key := mem_adel hq
      have hold : q.1 ∈ (afind (getRefId r) st.idToKeys).getD [] :=
        h.indexed q hq'.1 r hr
      rw [afind_removeIdx _ _ _ h.nodupSets]
      by_cases hmem : getRefId r ∈ e.data.map getRefId
      · rw [if_pos hmem]
        cases hfm : afind (getRefId r) st.idToKeys with
        | none => rw [hfm] at hold; simp at hold
        | some ks =>
          rw [hfm] at hold
          simp only [Option.getD_some] at hold
          have hnd : ks.Nodup :=
            h.nodupSets (getRefId r, ks) (mem_of_afind_eq_some hfm)
          have hmem' : q.1 ∈ ks.erase key :=
            (hnd.mem_erase_iff).mpr ⟨hq'.2, hold⟩
          have hne : ¬(ks.erase key).isEmpty := by
            intro hemp
            rw [List.isEmpty_iff.mp hemp] at hmem'
            cases hmem'
          simpa [hne] using hmem'
      · rw [if_neg hmem]
        exact hold

theorem foldl_removeEntry_inv (keys : List String) (st : CacheState)
    (h : CacheInv st) :
    CacheInv (keys.foldl (fun s k => removeEntry k s) st) := by
  induction keys generalizing st with
  | nil => exact h
  | cons k rest ih => exact ih _ (removeEntry_inv k st h)

theorem clearExpired_inv (now : Nat) (st : CacheState) (h : CacheInv st) :
    CacheInv (clearExpired now st) :=
  foldl_removeEntry_inv _ _ h

theorem cacheSet_inv (key : String) (v : List Reference) (now : Nat)
    (st : CacheState) (h : CacheInv st)
    (hpre : key.startsWith "search:" = true)
    (hfresh : afind key st.cache = none) :
    CacheInv (cacheSet key v now st) := by
  unfold cacheSet
  rw [hpre]
  simp only [if_true]
  rw [aset_eq_append_of_none _ _ _ hfresh]
  have hkeyni : key ∉ st.cache.map Prod.fst := (afind_eq_none_iff _ _).mp hfresh
  constructor
  · rw [List.map_append]
    exact h.nodupCache.append (List.nodup_singleton _)
      (by simpa [List.disjoint_singleton] using hkeyni)
  · exact nodupFst_addFold _ _ _ h.nodupIdx
  · exact nodupSets_addFold _ _ _ h.nodupSets
  · intro q hq
    rcases List.mem_append.mp hq with hm | hs1
    · exact h.cacheSearch q hm
    · simp only [List.mem_singleton] at hs1
      rw [hs1]
      exact hpre
  · intro p hp k hk
    have hfindp : afind p.1
        (v.foldl (fun m r => addKeyToId (getRefId r) key m) st.idToKeys) =
          some p.2 :=
      afind_eq_some_of_mem_nodup (nodupFst_addFold _ _ _ h.nodupIdx)
        (by simpa using hp)
    have hkmem : k ∈ (afind p.1
        (v.foldl (fun m r => addKeyToId (getRefId r) key m)
          st.idToKeys)).getD [] := by
      rw [hfindp]
      simpa using hk
    rcases mem_getD_addFold_inv _ _ _ _ _ hkmem with h1 | ⟨hkey, r, hrv, hrid⟩
    · cases hfo : afind p.1 st.idToKeys with
      | none => rw [hfo] at h1; simp at h1
      | some ks =>
        rw [hfo] at h1
        simp only [Option.getD_some] at h1
        rcases h.live (p.1, ks) (mem_of_afind_eq_some hfo) k h1 with
          ⟨e', he', r', hr', hid⟩
        refine ⟨e', ?_, r', hr', hid⟩
        rw [afind_append, he']
        rfl
    · subst hkey
      refine ⟨{ data := v, expiresAt := now + st.ttl }, ?_, r, hrv, hrid⟩
      rw [afind_append, hfresh]
      simp [afind]
  · intro q hq r hr
    rcases List.mem_append.mp hq with hm | hs1
    · exact mem_getD_addFold _ _ _ _ _ (h.indexed q hm r hr)
    · simp only [List.mem_singleton] at hs1
      rw [hs1] at hr ⊢
      exact key_mem_addFold key v st.idToKeys r (by simpa using hr)

theorem cacheGet_inv (key : String) (now : Nat) (st : CacheState)
    (h : CacheInv st) : CacheInv (cacheGet key now st).2 := by
  have h1 : CacheInv
      (if 100 < st.cache.length ∧ st.cache.length % 100 = 0 then
        clearExpired now st else st) := by
    split
    · exact clearExpired_inv _ _ h
    · exact h
  simp only [cacheGet]
  set st1 := if 100 < st.cache.length ∧ st.cache.length % 100 = 0 then
    clearExpired now st else st with hst1
  cases hf : afind key st1.cache with
  | none => simpa [hf] using h1
  | some e =>
    by_cases ht : now < e.expiresAt
    · simpa [hf, ht] using h1
    · simpa [hf, ht] using removeEntry_inv key st1 h1

theorem getByIdIter_inv (docId : String) (now : Nat) (pending : List String)
    (origSize : Nat) : ∀ (curSize : Nat) (st : CacheState), CacheInv st →
    CacheInv (getByIdIter docId now pending origSize curSize st).2 := by
  induction pending with
  | nil =>
    intro curSize st h
    unfold getByIdIter
    split
    · exact h
    · exact h
  | cons k rest ih =>
    intro curSize st h
    unfold getByIdIter
    split
    · exact h
    · cases hf : afind k st.cache with
      | none =>
        simpa [hf] using ih _ _ h
      | some e =>
        by_cases ht : now < e.expiresAt
        · cases hfind : e.data.find? (fun r => getRefId r = docId) with
          | some r => simpa [hf, ht, hfind] using h
          | none => simpa [hf, ht, hfind] using ih _ _ h
        · simpa [hf, ht] using ih _ _ (removeEntry_inv _ _ h)

theorem getById_inv (docId : String) (now : Nat) (st : CacheState)
    (h : CacheInv st) : CacheInv (getById docId now st).2 := by
  unfold getById
  cases hf : afind docId st.idToKeys with
  | none => exact h
  | some keys => exact getByIdIter_inv _ _ _ _ _ _ h

theorem stepOp_inv (st : CacheState) (op : CacheOp) (h : CacheInv st)
    (hok : serverOpOk st op = true) : CacheInv (stepOp st op) := by
  cases op with
  | set k v n =>
    simp only [serverOpOk, Bool.and_eq_true] at hok
    exact cacheSet_inv _ _ _ _ h hok.1
      (Option.isNone_iff_eq_none.mp hok.2)
  | get k n => exact cacheGet_inv _ _ _ h
  | getById i n => exact getById_inv _ _ _ h
  | clearExpired n => exact clearExpired_inv _ _ h

theorem runOps_inv (ops : List CacheOp) : ∀ st : CacheState, CacheInv st →
    goodOps st ops = true → CacheInv (runOps st ops) := by
  induction ops with
  | nil => exact fun st h _ => h
  | cons op rest ih =>
    intro st h hg
    rw [goodOps, Bool.and_eq_true] at hg
    have : runOps st (op :: rest) = runOps (stepOp st op) rest := rfl
    rw [this]
    exact ih _ (stepOp_inv st op h hg.1) hg.2

theorem init_inv (t : Nat) : CacheInv (SimpleCache.init t) := by
  constructor <;> simp [SimpleCache.init]

theorem cacheInvariant_of_inv (st : CacheState) (h : CacheInv st) :
    cacheInvariant st = true := by
  unfold cacheInvariant
  rw [Bool.and_eq_true]
  constructor
  · rw [List.all_eq_true]
    intro p hp
    rw [List.all_eq_true]
    intro k hk
    rcases h.live p hp k hk with ⟨e, he, _⟩
    simp [he]
  · rw [List.all_eq_true]
    intro q hq
    rw [List.all_eq_true]
    intro r hr
    exact decide_eq_true (h.indexed q hq r hr)

/-! ## C7 — `set` stores the entry and indexes the records -/

/-- C7 (counterexample): `set` only updates the secondary index for keys
starting with `"search:"`.  Setting a record with DOI `"d"` under the key
`"x"` stores the CacheEntry but leaves the identifier index empty — the
claim would require `"d" ↦ {"x"}`. -/
theorem cache_set_non_search_key_counterexample :
    (cacheSet "x" [fixDoiOnly] 0 (SimpleCache.init 10)).idToKeys = [] ∧
      afind "x" (cacheSet "x" [fixDoiOnly] 0 (SimpleCache.init 10)).cache =
        some { data := [fixDoiOnly], expiresAt := 10 } ∧
      getRefId fixDoiOnly = "d" :=
  ⟨by with_unfolding_all rfl, by with_unfolding_all rfl,
    by with_unfolding_all rfl⟩

/-- C7 (amended): for every key *starting with `"search:"`* and every
record list, `set(key, records)` stores a CacheEntry expiring at
`now + ttl` (the configured TTL; the default is 10 minutes) and adds `key`
to the secondary-index entry-set of each record's derived stable
identifier, which is computed with priority DOI > arXiv ID > paper ID >
bibliographic (DBLP) key > a deterministic short hash of the title
(`"title_hash_"` + first 16 hex digits of the title's MD5). -/
theorem cache_set_stores_and_indexes (key : String) (v : List Reference)
    (now : Nat) (st : CacheState)
    (hpre : key.startsWith "search:" = true) :
    afind key (cacheSet key v now st).cache =
        some { data := v, expiresAt := now + st.ttl } ∧
      (∀ r ∈ v, key ∈
        (afind (getRefId r) (cacheSet key v now st).idToKeys).getD []) ∧
      (SimpleCache.init).ttl = 10 ∧
      (∀ r : Reference, strTruthy r.doi = true → getRefId r = r.doi.getD "") ∧
      (∀ r : Reference, strTruthy r.doi = false →
        strTruthy r.arxiv_id = true → getRefId r = r.arxiv_id.getD "") ∧
      (∀ r : Reference, strTruthy r.doi = false →
        strTruthy r.arxiv_id = false → strTruthy r.s2_paper_id = true →
        getRefId r = r.s2_paper_id.getD "") ∧
      (∀ r : Reference, strTruthy r.doi = false →
        strTruthy r.arxiv_id = false → strTruthy r.s2_paper_id = false →
        strTruthy r.dblp_key = true → getRefId r = r.dblp_key.getD "") ∧
      (∀ r : Reference, strTruthy r.doi = false →
        strTruthy r.arxiv_id = false → strTruthy r.s2_paper_id = false →
        strTruthy r.dblp_key = false →
        getRefId r = "title_hash_" ++ (md5HexOfString r.title).take 16) := by
  refine ⟨?_, ?_, rfl, ?_, ?_, ?_, ?_, ?_⟩
  · unfold cacheSet
    simp only [afind_aset_self]
  · intro r hr
    unfold cacheSet
    rw [hpre]
    simp only [if_true]
    exact key_mem_addFold key v st.idToKeys r hr
  · intro r h1
    simp [getRefId, h1]
  · intro r h1 h2
    simp [getRefId, h1, h2]
  · intro r h1 h2 h3
    simp [getRefId, h1, h2, h3]
  · intro r h1 h2 h3 h4
    simp [getRefId, h1, h2, h3, h4]
  · intro r h1 h2 h3 h4
    simp [getRefId, h1, h2, h3, h4]

/-- C7 (witness): the theorem applied to key `"search:q"`, one DOI record,
time 0 and the fresh default cache. -/
theorem cache_set_stores_and_indexes_witness :
    afind "search:q"
        (cacheSet "search:q" [fixDoiOnly] 0 (SimpleCache.init 10)).cache =
      some { data := [fixDoiOnly], expiresAt := 0 + (SimpleCache.init 10).ttl } ∧
      "search:q" ∈ (afind (getRefId fixDoiOnly)
        (cacheSet "search:q" [fixDoiOnly] 0
          (SimpleCache.init 10)).idToKeys).getD [] :=
  ⟨(cache_set_stores_and_indexes "search:q" [fixDoiOnly] 0 (SimpleCache.init 10)
      (by with_unfolding_all rfl)).1,
    (cache_set_stores_and_indexes "search:q" [fixDoiOnly] 0 (SimpleCache.init 10)
      (by with_unfolding_all rfl)).2.1 fixDoiOnly (List.mem_cons_self _ _)⟩

/-! ## C8 — `get_by_id` and expired candidates -/

/-- C8 (code bug): `get_by_id` iterates the very set
`self._id_to_keys[doc_id]` that `_remove_entry` mutates when an expired
candidate is evicted, so CPython raises
`RuntimeError: Set changed size during iteration` (modelled as
`Except.error ()`) instead of continuing to the first non-expired match.
On a cache holding one expired `search:a` entry with a DOI-`"d"` record,
`get_by_id("d")` at time 20 errors (the eviction itself does complete);
at time 5, before expiry, the record is found as claimed. -/
theorem get_by_id_expired_candidate_runtime_error :
    (getById "d" 20 fixCacheOneEntry).1 = Except.error () ∧
      afind "search:a" (getById "d" 20 fixCacheOneEntry).2.cache = none ∧
      (getById "d" 5 fixCacheOneEntry).1 =
        Except.ok (some ("search:a", fixDoiOnly)) :=
  ⟨by with_unfolding_all rfl, by with_unfolding_all rfl,
    by with_unfolding_all rfl⟩

/-! ## C9 — the index/primary-map invariant -/

/-- C9 (counterexample): after the single operation
`set("x", [record with DOI "d"])` (a key without the `search:` marker),
the record is reachable from the primary map but not from the identifier
index, so the claimed invariant is violated. -/
theorem cache_invariant_violated_counterexample :
    cacheInvariant
      (runOps (SimpleCache.init 10) [CacheOp.set "x" [fixDoiOnly] 0]) =
      false := by
  with_unfolding_all rfl

/-- C9 (amended): after every sequence of cache operations in which each
`set` uses a `search:`-prefixed key absent from the primary map at the
time of the call (the server's usage pattern — it sets only after a miss),
the identifier index never references a cache key absent from the primary
map, and every record reachable from the primary map is reachable from the
identifier index under its derived identifier. -/
theorem cache_invariant_preserved (ops : List CacheOp)
    (h : goodOps (SimpleCache.init 10) ops = true) :
    cacheInvariant (runOps (SimpleCache.init 10) ops) = true :=
  cacheInvariant_of_inv _ (runOps_inv ops _ (init_inv 10) h)

/-- C9 (witness): a concrete server-shaped run — a `search:` set, a hit, a
point lookup and a sweep — is a good run and ends in an invariant-satisfying
state. -/
theorem cache_invariant_preserved_witness :
    goodOps (SimpleCache.init 10) fixGoodRun = true ∧
      cacheInvariant (runOps (SimpleCache.init 10) fixGoodRun) = true :=
  ⟨by with_unfolding_all rfl,
    cache_invariant_preserved fixGoodRun (by with_unfolding_all rfl)⟩

/-! ## C10 — `dedupe_rank` never mutates its input (heap model) -/

theorem take_set_of_le (l : List Reference) (i n : Nat) (v : Reference)
    (h : n ≤ i) : (l.set i v).take n = l.take n := by
  induction l generalizing i n with
  | nil => simp
  | cons x xs ih =>
    cases i with
    | zero =>
      rw [Nat.le_zero.mp h]
      simp
    | succ i' =>
      cases n with
      | zero => simp
      | succ n' =>
        rw [List.set_cons_succ, List.take_succ_cons, List.take_succ_cons,
          ih _ _ (Nat.le_of_succ_le_succ h)]

/-- The inner heap scan writes only to the accumulator cell `c`: the store
keeps its length and its first `n ≤ c` cells. -/
theorem collectDupsH_store (c : Nat) (xs : List Nat) : ∀ st : Store,
    (collectDupsH c xs st).1.length = st.length ∧
      ∀ n ≤ c, (collectDupsH c xs st).1.take n = st.take n := by
  induction xs with
  | nil => exact fun st => ⟨rfl, fun n _ => rfl⟩
  | cons x rest ih =>
    intro st
    unfold collectDupsH
    split
    · rcases ih (storeSet st c ((storeGet st c).mergeWith (storeGet st x)))
        with ⟨hlen, htake⟩
      refine ⟨by rw [hlen]; simp [storeSet], fun n hn => ?_⟩
      rw [htake n hn]
      exact take_set_of_le _ _ _ _ hn
    · rcases ih st with ⟨hlen, htake⟩
      exact ⟨hlen, htake⟩

/-- The heap grouping scan allocates fresh accumulator cells and writes
only to them: the first `n` cells of the incoming store are preserved, and
the store only grows. -/
theorem groupDupsH_store (fuel : Nat) : ∀ (addrs : List Nat) (st : Store),
    st.length ≤ (groupDupsH fuel addrs st).1.length ∧
      ∀ n ≤ st.length, (groupDupsH fuel addrs st).1.take n = st.take n := by
  induction fuel with
  | zero =>
    intro addrs st
    cases addrs with
    | nil => exact ⟨le_rfl, fun n _ => rfl⟩
    | cons a rest => exact ⟨le_rfl, fun n _ => rfl⟩
  | succ fuel ih =>
    intro addrs st
    cases addrs with
    | nil => exact ⟨le_rfl, fun n _ => rfl⟩
    | cons a rest =>
      simp only [groupDupsH]
      rcases collectDupsH_store (storeAlloc st (storeGet st a)).2 rest
        (storeAlloc st (storeGet st a)).1 with ⟨hqlen, hqtake⟩
      rcases ih (collectDupsH (storeAlloc st (storeGet st a)).2 rest
          (storeAlloc st (storeGet st a)).1).2
        (collectDupsH (storeAlloc st (storeGet st a)).2 rest
          (storeAlloc st (storeGet st a)).1).1 with ⟨hglen, hgtake⟩
      have hallocLen : (storeAlloc st (storeGet st a)).1.length =
          st.length + 1 := by
        simp [storeAlloc]
      constructor
      · rw [hqlen, hallocLen] at hglen
        omega
      · intro n hn
        rw [hgtake n (by rw [hqlen, hallocLen]; omega)]
        rw [hqtake n hn]
        have : (storeAlloc st (storeGet st a)).1 =
            st ++ [storeGet st a] := by
          simp [storeAlloc]
        rw [this]
        exact List.take_append_of_le_length hn

/-- C10: the Python `dedupe_rank` never mutates its input.  In the heap
model — where each accumulator is a deep copy in a freshly allocated cell
and `merge_with` writes only to that cell while reading the later record's
cell — the input portion of the heap is returned unchanged: the first
`|st|` cells of the final heap are exactly the initial heap `st`, for every
list of input addresses and every `max_results`. -/
theorem dedupe_rank_heap_preserves_input (addrs : List Nat) (m : Nat)
    (st : Store) : ((dedupeRankH addrs m st).1).take st.length = st := by
  unfold dedupeRankH
  split
  · exact List.take_length st
  · show ((groupDupsH addrs.length addrs st).1).take st.length = st
    rw [(groupDupsH_store addrs.length addrs st).2 st.length le_rfl]
    exact List.take_length st
